import Mathlib

set_option maxRecDepth 4000

/-!
Verification of the crawl-rs same-subdomain crawler.

The development shallowly embeds the two pipeline workers of the repository:
the link extractor of `src/link_parser.rs` (`LinkParser::run`, `parse_urls`,
`parse_html`, `normalize_href`) and the fetch worker of `src/requester.rs`
(`Requester::run`).  Rust strings are embedded as `List Char`.  The external
`url` crate's `Url::parse` / `Url::domain` / `Url::path` are modelled by a
parser for the fragment of the WHATWG grammar the crawler exercises
(scheme, `//`-authority with host, path, query, fragment; no-authority
schemes such as `mailto:` yield a host-less URL).  The external `scraper`
HTML parser is out of the crawler's scope, so a fetched page is modelled by
the anchor `href` lists of its top-level document and of each
`noscript`-derived document.  Channel receives are modelled by the finite
list of items delivered before the channel closed or timed out, and channel
sends by accumulation into a result list.
-/

/-- Rust `&str` / `String`, embedded as its character list. -/
abbrev Str := List Char

/-- Character list of a Lean string literal. -/
def str (s : String) : Str := s.data

/-- Embeds Rust `s.split(c).next().unwrap()` (component `.1`, everything
strictly before the first occurrence of `c`) together with the remainder
after that occurrence (component `.2`). -/
def breakAt (c : Char) (s : Str) : Str × Str :=
  (s.takeWhile (fun a => a != c), (s.dropWhile (fun a => a != c)).tail)

/-- Scheme characters admitted by the `url` crate: ALPHA / DIGIT / `+` / `-` / `.`. -/
def isSchemeChar (c : Char) : Bool :=
  c.isAlpha || c.isDigit || c == '+' || c == '-' || c == '.'

/-- A scheme is valid when nonempty, made of scheme characters and starting
with a letter. -/
def validScheme (s : Str) : Bool :=
  s.all isSchemeChar && (match s with | [] => false | c :: _ => c.isAlpha)

/-- Characters that may appear in the host component (the host ends at the
first `/`, `?` or `#`). -/
def hostChar (c : Char) : Bool := !(c == '/' || c == '?' || c == '#')

/-- Model of the `url` crate's parsed `Url` value.  `host = []` encodes a
host-less URL (`Url::domain()` returns `None` there). -/
structure Url where
  scheme : Str
  host : Str
  path : Str
  query : Str
  fragment : Str
deriving DecidableEq

/-- Path component of the serialized input after the authority: everything
before the first `?` of the part before the first `#`. -/
def urlPath (t : Str) : Str := (breakAt '?' (breakAt '#' t).1).1

/-- Query component: everything after the first `?` of the part before the
first `#`. -/
def urlQuery (t : Str) : Str := (breakAt '?' (breakAt '#' t).1).2

/-- Fragment component: everything after the first `#`. -/
def urlFrag (t : Str) : Str := (breakAt '#' t).2

/-- An authority URL with an empty path serializes its path as `/`. -/
def pathDefault (p : Str) : Str := if p = [] then str "/" else p

/-- Parses the part after `scheme://`: a nonempty host followed by
path/query/fragment.  An empty host is a parse error, as in the `url`
crate for special schemes. -/
def Url.parseAuthority (scheme rest : Str) : Option Url :=
  if rest.takeWhile hostChar = [] then none
  else
    some ⟨scheme, rest.takeWhile hostChar,
      pathDefault (urlPath (rest.drop (rest.takeWhile hostChar).length)),
      urlQuery (rest.drop (rest.takeWhile hostChar).length),
      urlFrag (rest.drop (rest.takeWhile hostChar).length)⟩

/-- A no-authority URL (`mailto:`, `tel:`, …): host-less, raw path. -/
def Url.noAuthority (scheme r : Str) : Url :=
  ⟨scheme, [], urlPath r, urlQuery r, urlFrag r⟩

/-- The scheme candidate of a serialized URL: everything before the first `:`. -/
def schemeOf (s : Str) : Str := s.takeWhile (fun a => a != ':')

/-- The part of a serialized URL after the `scheme:` part. -/
def afterScheme (s : Str) : Str := s.drop ((schemeOf s).length + 1)

/-- Model of `Url::parse`.  Fails when the input has no `:` (a relative URL
without a base, e.g. `""` or `corrupted-href`) or an invalid scheme; a
`//` introduces an authority whose host must be nonempty; otherwise the
remainder is a no-authority opaque-ish path. -/
def Url.parse (s : Str) : Option Url :=
  if (schemeOf s).length = s.length then none
  else if validScheme (schemeOf s) = false then none
  else if (afterScheme s).take 2 = str "//" then
    Url.parseAuthority (schemeOf s) ((afterScheme s).drop 2)
  else some (Url.noAuthority (schemeOf s) (afterScheme s))

/-- Model of `Url::domain`: the host when present. -/
def Url.domain (u : Url) : Option Str := if u.host = [] then none else some u.host

/-- Embeds Rust `s.trim_end_matches('/')`: strips every trailing `/`. -/
def trimSlash (s : Str) : Str := (s.reverse.dropWhile (fun a => a == '/')).reverse

/-- Embeds `normalize_href` of `src/link_parser.rs`: the bespoke root forms
`""`, `/`, `#`, `/#` map to `https://subdomain`; otherwise the fragment is
stripped (`split("#").next()`) and `https://subdomain` is prepended exactly
when the remainder starts with `/`. -/
def normalize_href (href subdomain : Str) : Str :=
  if href = [] ∨ href = str "/" ∨ href = str "#" ∨ href = str "/#" then
    str "https://" ++ subdomain
  else if (href.takeWhile (fun a => a != '#')).head? = some '/' then
    str "https://" ++ subdomain ++ href.takeWhile (fun a => a != '#')
  else href.takeWhile (fun a => a != '#')

/-- The candidate-link normalization as the specification words it: the four
root forms are the site root; everything from the first `#` onward is
removed (here via `findIdx`/`take`); `https://subdomain` is prepended iff
the remainder is root-relative; any other remainder is returned unchanged. -/
def normalizeHrefSpec (href subdomain : Str) : Str :=
  if href ∈ [[], str "/", str "#", str "/#"] then str "https://" ++ subdomain
  else if (href.take (href.findIdx (fun a => a == '#'))).head? = some '/' then
    str "https://" ++ subdomain ++ href.take (href.findIdx (fun a => a == '#'))
  else href.take (href.findIdx (fun a => a == '#'))

/-- One anchor's contribution in `parse_urls`: normalize the href, parse it,
and keep the URL only when its domain equals the crawl's subdomain.
Anchors that fail parsing are logged and dropped (`None`). -/
def hrefUrl (subdomain href : Str) : Option Url :=
  match Url.parse (normalize_href href subdomain) with
  | some url => if url.domain = some subdomain then some url else none
  | none => none

/-- The URLs extracted from one document's anchor list; `none` entries are
anchors without an `href` attribute, which are logged and skipped. -/
def extractDoc (subdomain : Str) (anchors : List (Option Str)) : List Url :=
  anchors.filterMap (fun a => a.bind (hrefUrl subdomain))

/-- A fetched page, given by the anchor `href` lists of each
`noscript`-derived document and of the top-level document (the `scraper`
HTML parser itself is external to the crawler). -/
structure Page where
  noscripts : List (List (Option Str))
  topDoc : List (Option Str)

/-- Embeds `parse_html`: one document per `noscript` element (its inner text
re-parsed), then the top-level document. -/
def parse_html (page : Page) : List (List (Option Str)) :=
  page.noscripts ++ [page.topDoc]

/-- Embeds `parse_urls`: anchors of every document of the page, normalized,
parsed and filtered to the crawl's subdomain. -/
def parse_urls (page : Page) (subdomain : Str) : List Url :=
  ((parse_html page).map (extractDoc subdomain)).flatten

/-- The frontier key claimed for a URL in `LinkParser::run`:
`url.path().trim_end_matches('/')`. -/
def frontierKey (u : Url) : Str := trimSlash u.path

/-- The binary-resource filter of `LinkParser::run`:
`url.path().ends_with(".pdf") || url.path().ends_with(".mp3")`. -/
def isBinaryResource (u : Url) : Bool :=
  (str ".pdf").isSuffixOf u.path || (str ".mp3").isSuffixOf u.path

/-- The frontier key the extractor would claim for a raw href, when the
href survives normalization, parsing and the subdomain filter. -/
def survivingKey (subdomain href : Str) : Option Str :=
  (hrefUrl subdomain href).map frontierKey

/-- The per-page loop body of `LinkParser::run`: for each extracted URL,
skip binary resources, then atomically (the lock is held across the three
steps) test the visited set, insert the frontier key and send the URL.
Returns the updated visited set and the URLs sent on the url-queue. -/
def processUrls : List Str → List Url → List Str × List Url
  | visited, [] => (visited, [])
  | visited, url :: rest =>
    if isBinaryResource url then processUrls visited rest
    else if frontierKey url ∈ visited then processUrls visited rest
    else
      ((processUrls (frontierKey url :: visited) rest).1,
        url :: (processUrls (frontierKey url :: visited) rest).2)

/-- Embeds `LinkParser::run`: the pages received from the html-queue before
it closed or timed out are processed in order, threading the shared visited
set; the result collects every URL sent on the url-queue. -/
def LinkParser.run (subdomain : Str) : List Str → List Page → List Str × List Url
  | visited, [] => (visited, [])
  | visited, page :: rest =>
    ((LinkParser.run subdomain (processUrls visited (parse_urls page subdomain)).1 rest).1,
      (processUrls visited (parse_urls page subdomain)).2 ++
        (LinkParser.run subdomain (processUrls visited (parse_urls page subdomain)).1 rest).2)

/-- The body of `Requester::run` over the URLs delivered by the url-queue
before it closed: every URL is pulled and fetched; a fetch error is logged
and skipped; a fetched body is sent on the html-queue, and when the
html-queue's receiver is gone (`htmlAlive = false`) the send error is
logged and the loop continues.  Returns the URLs pulled and the bodies
successfully sent. -/
def requesterLoop (fetch : Url → Option Str) (htmlAlive : Bool) :
    List Url → List Url × List Str
  | [] => ([], [])
  | url :: rest =>
    match fetch url with
    | none => (url :: (requesterLoop fetch htmlAlive rest).1,
        (requesterLoop fetch htmlAlive rest).2)
    | some body => (url :: (requesterLoop fetch htmlAlive rest).1,
        if htmlAlive then body :: (requesterLoop fetch htmlAlive rest).2
        else (requesterLoop fetch htmlAlive rest).2)

/-- Embeds `Requester::run`: the worker drains the url-queue and always
returns `Ok` — every error inside the loop is handled by logging. -/
def Requester.run (fetch : Url → Option Str) (htmlAlive : Bool) (urls : List Url) :
    Except String (List Url × List Str) :=
  Except.ok (requesterLoop fetch htmlAlive urls)

/-! ## Helper lemmas -/

theorem takeWhile_all {p : Char → Bool} (xs : Str) (h : ∀ x ∈ xs, p x = true) :
    xs.takeWhile p = xs :=
  List.takeWhile_eq_self_iff.mpr h

theorem takeWhile_append_not_all {p : Char → Bool} (xs ys : Str)
    (h : ¬ ∀ x ∈ xs, p x = true) : (xs ++ ys).takeWhile p = xs.takeWhile p := by
  rw [List.takeWhile_append, if_neg]
  intro hl
  exact h (List.takeWhile_eq_self_iff.mp ((List.takeWhile_sublist p).eq_of_length hl))

theorem all_bne_iff (c : Char) (xs : Str) : (∀ x ∈ xs, (x != c) = true) ↔ c ∉ xs := by
  constructor
  · intro h hc
    have := h c hc
    simp at this
  · intro h x hx
    simp only [bne_iff_ne]
    intro hxc
    exact h (hxc ▸ hx)

theorem trimSlash_snoc_slash (x : Str) : trimSlash (x ++ [ '/' ]) = trimSlash x := by
  unfold trimSlash
  rw [List.reverse_append]
  simp

theorem trimSlash_pathDefault (p : Str) : trimSlash (pathDefault p) = trimSlash p := by
  unfold pathDefault
  split
  · rename_i h
    subst h
    decide
  · rfl

theorem takeWhile_bne_eq_take_findIdx (c : Char) (l : Str) :
    l.takeWhile (fun a => a != c) = l.take (l.findIdx (fun a => a == c)) := by
  induction l with
  | nil => rfl
  | cons a t ih =>
    by_cases h : a = c
    · subst h
      simp [List.takeWhile_cons, List.findIdx_cons]
    · have hbeq : (a == c) = false := by simp [h]
      simp [List.takeWhile_cons, List.findIdx_cons, hbeq, ih, List.take_succ_cons, h]

/-! ## Claim theorems -/

/-- C4: for every raw href and subdomain, normalization returns
`https://subdomain` when the href is exactly one of `""`, `/`, `#`, `/#`;
otherwise it removes everything from the first `#` onward, prepends
`https://subdomain` iff the remainder starts with `/`, and returns any
other remainder unchanged — i.e. the code's `normalize_href` coincides
with the specification's normalization. -/
theorem c4_normalize_href_spec_equiv (href subdomain : Str) :
    normalize_href href subdomain = normalizeHrefSpec href subdomain := by
  unfold normalize_href normalizeHrefSpec
  rw [takeWhile_bne_eq_take_findIdx]
  exact if_congr (by simp) rfl rfl

/-- C5: an absolute URL string with no `#`, not starting with `/` and not
one of the bespoke root forms is returned unchanged by `normalize_href`,
and hence normalizing it a second time yields the same string. -/
theorem c5_normalize_idempotent (s d : Str) (h1 : '#' ∉ s) (h2 : s.head? ≠ some '/')
    (h3 : s ≠ []) :
    normalize_href s d = s ∧ normalize_href (normalize_href s d) d = normalize_href s d := by
  have htw : s.takeWhile (fun a => a != '#') = s :=
    takeWhile_all s ((all_bne_iff '#' s).mpr h1)
  have hb : ¬ (s = [] ∨ s = str "/" ∨ s = str "#" ∨ s = str "/#") := by
    rintro (rfl | rfl | rfl | rfl)
    · exact h3 rfl
    · exact h2 rfl
    · exact h1 (by decide)
    · exact h2 rfl
  have h4 : normalize_href s d = s := by
    unfold normalize_href
    rw [if_neg hb, htw, if_neg h2]
  exact ⟨h4, by rw [h4, h4]⟩

/-- C5 witness: a concrete already-normalized absolute URL is a fixed point
of `normalize_href`. -/
theorem c5_normalize_idempotent_witness :
    normalize_href (str "https://example.com/about") (str "example.com")
      = str "https://example.com/about" :=
  (c5_normalize_idempotent (str "https://example.com/about") (str "example.com")
    (by decide) (by decide) (by decide)).1

/-- C10: an href starting with `#` but not exactly `#` normalizes to the
empty string, which fails URL parsing, so an in-page fragment link is
discarded by extraction rather than being treated as the site root. -/
theorem c10_fragment_only_href_discarded (h d : Str) (pre post : List (Option Str))
    (h1 : h.head? = some '#') (h2 : h ≠ str "#") :
    normalize_href h d = []
  ∧ Url.parse ([] : Str) = none
  ∧ str "https://" ++ d ≠ []
  ∧ extractDoc d (pre ++ some h :: post) = extractDoc d (pre ++ post) := by
  have hb : ¬ (h = [] ∨ h = str "/" ∨ h = str "#" ∨ h = str "/#") := by
    rintro (rfl | rfl | rfl | rfl)
    · exact Option.noConfusion h1
    · exact absurd (Option.some.inj h1) (by decide)
    · exact h2 rfl
    · exact absurd (Option.some.inj h1) (by decide)
  obtain ⟨t, rfl⟩ : ∃ t, h = '#' :: t := by
    cases h with
    | nil => exact Option.noConfusion h1
    | cons a t => exact ⟨t, by rw [Option.some.inj h1]⟩
  have htw : ('#' :: t).takeWhile (fun a => a != '#') = [] := by
    simp [List.takeWhile_cons]
  have hnorm : normalize_href ('#' :: t) d = [] := by
    unfold normalize_href
    rw [if_neg hb, htw]
    simp
  refine ⟨hnorm, rfl, List.append_ne_nil_of_left_ne_nil (by decide) d, ?_⟩
  have hhu : hrefUrl d ('#' :: t) = none := by
    unfold hrefUrl
    rw [hnorm, show Url.parse ([] : Str) = none from rfl]
  unfold extractDoc
  rw [List.filterMap_append, List.filterMap_append, List.filterMap_cons]
  simp [hhu]

/-- C10 witness: the concrete in-page link `#top` is normalized to the empty
string, fails parsing and is dropped from extraction. -/
theorem c10_fragment_only_href_discarded_witness :
    normalize_href (str "#top") (str "x.com") = []
  ∧ Url.parse ([] : Str) = none
  ∧ str "https://" ++ str "x.com" ≠ []
  ∧ extractDoc (str "x.com") ([some (str "/a")] ++ some (str "#top") :: [])
      = extractDoc (str "x.com") ([some (str "/a")] ++ []) :=
  c10_fragment_only_href_discarded (str "#top") (str "x.com")
    [some (str "/a")] [] (by decide) (by decide)

/-- C9: an anchor without an href and an anchor whose href fails to parse
after normalization are each excluded from the output while extraction of
the surrounding anchors continues unchanged (and `corrupted-href` is such
a failing href); extraction is total and never returns an error. -/
theorem c9_malformed_href_skipped (d : Str) (pre post : List (Option Str)) (h : Str)
    (hbad : Url.parse (normalize_href h d) = none) :
    extractDoc d (pre ++ none :: post) = extractDoc d (pre ++ post)
  ∧ extractDoc d (pre ++ some h :: post) = extractDoc d (pre ++ post)
  ∧ Url.parse (normalize_href (str "corrupted-href") (str "example.com")) = none := by
  have hhu : hrefUrl d h = none := by
    unfold hrefUrl
    rw [hbad]
  unfold extractDoc
  refine ⟨?_, ?_, by decide⟩
  · rw [List.filterMap_append, List.filterMap_append, List.filterMap_cons]
    simp
  · rw [List.filterMap_append, List.filterMap_append, List.filterMap_cons]
    simp [hhu]

/-- C9 witness: with a malformed href between two good anchors, extraction
yields exactly the two good anchors' URLs. -/
theorem c9_malformed_href_skipped_witness :
    extractDoc (str "x.com") ([some (str "/a")] ++ none :: [some (str "/b")])
      = extractDoc (str "x.com") ([some (str "/a")] ++ [some (str "/b")])
  ∧ extractDoc (str "x.com") ([some (str "/a")] ++ some (str "corrupted-href") :: [some (str "/b")])
      = extractDoc (str "x.com") ([some (str "/a")] ++ [some (str "/b")])
  ∧ Url.parse (normalize_href (str "corrupted-href") (str "example.com")) = none :=
  c9_malformed_href_skipped (str "x.com") [some (str "/a")] [some (str "/b")]
    (str "corrupted-href") (by decide)

/-- C7: `parse_html` yields one document per `noscript` element plus the
top-level document, and `parse_urls` collects the anchors of all of them;
for a page with two `noscript` documents and a top-level document the
extracted links are the concatenation over all three documents. -/
theorem c7_noscript_union (page : Page) (d : Str) :
    (parse_html page).length = page.noscripts.length + 1
  ∧ parse_urls page d
      = (page.noscripts.map (extractDoc d)).flatten ++ extractDoc d page.topDoc
  ∧ ∀ a b t, parse_urls ⟨[a, b], t⟩ d = extractDoc d a ++ extractDoc d b ++ extractDoc d t := by
  refine ⟨by simp [parse_html], ?_, ?_⟩
  · unfold parse_urls parse_html
    simp
  · intro a b t
    unfold parse_urls parse_html
    simp

/-- C8: a URL whose path ends in `.pdf` or `.mp3` is skipped before any
frontier interaction — the visited set and the sent list are exactly those
of the remaining URLs — so a later non-binary URL with the same frontier
key is still claimed and enqueued. -/
theorem c8_binary_filter_before_claim (visited : List Str) (u : Url) (rest : List Url)
    (hbin : isBinaryResource u = true) :
    processUrls visited (u :: rest) = processUrls visited rest
  ∧ ∀ u2 rest2, isBinaryResource u2 = false → frontierKey u2 ∉ visited →
      u2 ∈ (processUrls visited (u :: u2 :: rest2)).2 := by
  have h1 : ∀ r, processUrls visited (u :: r) = processUrls visited r := by
    intro r
    simp only [processUrls, hbin, if_true]
  refine ⟨h1 rest, ?_⟩
  intro u2 rest2 hb2 hnm
  rw [h1 (u2 :: rest2)]
  simp only [processUrls, hb2, Bool.false_eq_true, if_false, if_neg hnm]
  exact List.mem_cons_self _ _

/-- C8 witness: a `.pdf` URL leaves the frontier untouched, and the
trailing-slash variant of the same path is afterwards still enqueued. -/
theorem c8_binary_filter_before_claim_witness :
    processUrls [] [⟨str "https", str "x.com", str "/doc.pdf", [], []⟩]
      = processUrls [] []
  ∧ (⟨str "https", str "x.com", str "/doc.pdf/", [], []⟩ : Url)
      ∈ (processUrls [] [⟨str "https", str "x.com", str "/doc.pdf", [], []⟩,
          ⟨str "https", str "x.com", str "/doc.pdf/", [], []⟩]).2 :=
  ⟨(c8_binary_filter_before_claim [] ⟨str "https", str "x.com", str "/doc.pdf", [], []⟩
      [] (by decide)).1,
   (c8_binary_filter_before_claim [] ⟨str "https", str "x.com", str "/doc.pdf", [], []⟩
      [] (by decide)).2 ⟨str "https", str "x.com", str "/doc.pdf/", [], []⟩ []
      (by decide) (by decide)⟩

/-- C2 (amended): the Fetcher's loop pulls every URL the url-queue delivers
until the queue is closed and drained — a failed send on the html-queue is
logged and the loop continues — and with an empty, closed url-queue it
exits immediately and cleanly with `Ok`. -/
theorem c2_fetcher_drains_queue (fetch : Url → Option Str) (htmlAlive : Bool)
    (urls : List Url) :
    (requesterLoop fetch htmlAlive urls).1 = urls
  ∧ Requester.run fetch htmlAlive [] = Except.ok ([], []) := by
  refine ⟨?_, rfl⟩
  induction urls with
  | nil => rfl
  | cons u rest ih =>
    unfold requesterLoop
    cases hf : fetch u <;> simp [ih]

/-- C2 counterexample: with the html-queue's receiver gone (every send
fails), the Fetcher still pulls the second URL after the first send
failure — it does not stop pulling on send failure as the claim states. -/
theorem c2_stop_on_send_failure_false :
    (requesterLoop (fun _ => some (str "body")) false
        [⟨str "https", str "x.com", str "/a", [], []⟩,
         ⟨str "https", str "x.com", str "/b", [], []⟩]).1
      = [⟨str "https", str "x.com", str "/a", [], []⟩,
         ⟨str "https", str "x.com", str "/b", [], []⟩]
  ∧ ([⟨str "https", str "x.com", str "/a", [], []⟩,
      ⟨str "https", str "x.com", str "/b", [], []⟩] : List Url)
      ≠ [⟨str "https", str "x.com", str "/a", [], []⟩] :=
  ⟨rfl, by decide⟩

theorem processUrls_fst (visited : List Str) (us : List Url) :
    (processUrls visited us).1
      = ((processUrls visited us).2.map frontierKey).reverse ++ visited := by
  induction us generalizing visited with
  | nil => rfl
  | cons u rest ih =>
    by_cases hb : isBinaryResource u = true
    · simpa only [processUrls, hb, if_true] using ih visited
    · by_cases hm : frontierKey u ∈ visited
      · simpa only [processUrls, hb, if_false, if_pos hm] using ih visited
      · simp only [processUrls, hb, if_false, if_neg hm, List.map_cons, List.reverse_cons]
        rw [ih (frontierKey u :: visited)]
        simp [List.append_assoc]

theorem processUrls_sent (visited : List Str) (us : List Url) :
    (∀ u ∈ (processUrls visited us).2,
        frontierKey u ∉ visited ∧ u ∈ us ∧ isBinaryResource u = false)
  ∧ ((processUrls visited us).2.map frontierKey).Nodup := by
  induction us generalizing visited with
  | nil => exact ⟨by intro u hu; exact absurd hu (List.not_mem_nil u), List.nodup_nil⟩
  | cons u rest ih =>
    by_cases hb : isBinaryResource u = true
    · have heq : processUrls visited (u :: rest) = processUrls visited rest := by
        simp only [processUrls, hb, if_true]
      rw [heq]
      refine ⟨fun v hv => ?_, (ih visited).2⟩
      obtain ⟨h1, h2, h3⟩ := (ih visited).1 v hv
      exact ⟨h1, List.mem_cons_of_mem u h2, h3⟩
    · by_cases hm : frontierKey u ∈ visited
      · have heq : processUrls visited (u :: rest) = processUrls visited rest := by
          simp only [processUrls, hb, if_false, if_pos hm, Bool.false_eq_true]
        rw [heq]
        refine ⟨fun v hv => ?_, (ih visited).2⟩
        obtain ⟨h1, h2, h3⟩ := (ih visited).1 v hv
        exact ⟨h1, List.mem_cons_of_mem u h2, h3⟩
      · have heq : processUrls visited (u :: rest)
            = ((processUrls (frontierKey u :: visited) rest).1,
                u :: (processUrls (frontierKey u :: visited) rest).2) := by
          simp only [processUrls, hb, if_false, if_neg hm, Bool.false_eq_true]
        rw [heq]
        refine ⟨?_, ?_⟩
        · intro v hv
          rw [List.mem_cons] at hv
          cases hv with
          | inl h =>
            subst h
            exact ⟨hm, List.mem_cons_self v rest, Bool.not_eq_true _ ▸ hb⟩
          | inr h =>
            obtain ⟨h1, h2, h3⟩ := (ih (frontierKey u :: visited)).1 v h
            exact ⟨fun hc => h1 (List.mem_cons_of_mem _ hc),
              List.mem_cons_of_mem u h2, h3⟩
        · rw [List.map_cons]
          refine List.nodup_cons.mpr ⟨?_, (ih (frontierKey u :: visited)).2⟩
          intro hc
          rw [List.mem_map] at hc
          obtain ⟨v, hv, hkey⟩ := hc
          exact ((ih (frontierKey u :: visited)).1 v hv).1 (hkey ▸ List.mem_cons_self _ _)

theorem linkParser_run_fst (d : Str) (visited : List Str) (pages : List Page) :
    (LinkParser.run d visited pages).1
      = ((LinkParser.run d visited pages).2.map frontierKey).reverse ++ visited := by
  induction pages generalizing visited with
  | nil => rfl
  | cons p rest ih =>
    simp only [LinkParser.run]
    rw [ih, processUrls_fst]
    simp [List.append_assoc]

theorem linkParser_run_sent (d : Str) (visited : List Str) (pages : List Page) :
    (∀ u ∈ (LinkParser.run d visited pages).2,
        frontierKey u ∉ visited ∧ ∃ p ∈ pages, u ∈ parse_urls p d)
  ∧ ((LinkParser.run d visited pages).2.map frontierKey).Nodup := by
  induction pages generalizing visited with
  | nil =>
    exact ⟨by intro u hu; exact absurd hu (List.not_mem_nil u), List.nodup_nil⟩
  | cons p rest ih =>
    have hfst := processUrls_fst visited (parse_urls p d)
    refine ⟨?_, ?_⟩
    · intro u hu
      simp only [LinkParser.run, List.mem_append] at hu
      cases hu with
      | inl h =>
        obtain ⟨h1, h2, _⟩ := (processUrls_sent visited (parse_urls p d)).1 u h
        exact ⟨h1, p, List.mem_cons_self p rest, h2⟩
      | inr h =>
        obtain ⟨h1, p2, hp2, hu2⟩ :=
          (ih (processUrls visited (parse_urls p d)).1).1 u h
        refine ⟨fun hc => h1 ?_, p2, List.mem_cons_of_mem p hp2, hu2⟩
        rw [hfst]
        exact List.mem_append_right _ hc
    · simp only [LinkParser.run, List.map_append]
      refine List.Nodup.append (processUrls_sent visited (parse_urls p d)).2
        (ih (processUrls visited (parse_urls p d)).1).2 ?_
      intro a ha hb
      rw [List.mem_map] at hb
      obtain ⟨v, hv, hkey⟩ := hb
      have h1 := ((ih (processUrls visited (parse_urls p d)).1).1 v hv).1
      apply h1
      rw [hfst, hkey]
      exact List.mem_append_left _ (List.mem_reverse.mpr ha)

/-- C1: across a whole extractor run, each frontier key is claimed at most
once — the keys of the URLs sent on the url-queue are pairwise distinct and
none was already visited — and the final visited set is exactly the claimed
keys together with the initial ones, so the url-queue receives each newly
claimed key exactly once even when the same link occurs on two pages. -/
theorem c1_frontier_claim_unique (subdomain : Str) (visited : List Str) (pages : List Page) :
    ((LinkParser.run subdomain visited pages).2.map frontierKey).Nodup
  ∧ (∀ u ∈ (LinkParser.run subdomain visited pages).2, frontierKey u ∉ visited)
  ∧ (∀ k, k ∈ (LinkParser.run subdomain visited pages).1
        ↔ k ∈ (LinkParser.run subdomain visited pages).2.map frontierKey ∨ k ∈ visited) := by
  refine ⟨(linkParser_run_sent subdomain visited pages).2,
    fun u hu => ((linkParser_run_sent subdomain visited pages).1 u hu).1,
    fun k => ?_⟩
  rw [linkParser_run_fst]
  simp [List.mem_append]

/-- C1 witness: the same link discovered on two pages (as `/a`, `/a#f` and
`/a/`) is claimed and sent only once. -/
theorem c1_frontier_claim_unique_witness :
    frontierKey ⟨str "https", str "x.com", str "/a", [], []⟩ ∉ ([] : List Str)
  ∧ (str "/a" ∈ (LinkParser.run (str "x.com") []
        [⟨[], [some (str "/a"), some (str "/a#f")]⟩, ⟨[], [some (str "/a/")]⟩]).1
      ↔ str "/a" ∈ ((LinkParser.run (str "x.com") []
          [⟨[], [some (str "/a"), some (str "/a#f")]⟩,
            ⟨[], [some (str "/a/")]⟩]).2.map frontierKey)
        ∨ str "/a" ∈ ([] : List Str)) :=
  ⟨(c1_frontier_claim_unique (str "x.com") []
      [⟨[], [some (str "/a"), some (str "/a#f")]⟩, ⟨[], [some (str "/a/")]⟩]).2.1
      ⟨str "https", str "x.com", str "/a", [], []⟩ (by decide),
   (c1_frontier_claim_unique (str "x.com") []
      [⟨[], [some (str "/a"), some (str "/a#f")]⟩, ⟨[], [some (str "/a/")]⟩]).2.2
      (str "/a")⟩

theorem hrefUrl_eq_some_iff (d h : Str) (u : Url) :
    hrefUrl d h = some u
      ↔ Url.parse (normalize_href h d) = some u ∧ u.domain = some d := by
  unfold hrefUrl
  cases hp : Url.parse (normalize_href h d) with
  | none => simp
  | some v =>
    dsimp only
    by_cases hd : v.domain = some d
    · rw [if_pos hd]
      constructor
      · intro he
        cases he
        exact ⟨rfl, hd⟩
      · intro he
        cases he.1
        rfl
    · rw [if_neg hd]
      constructor
      · intro he
        exact Option.noConfusion he
      · intro he
        cases he.1
        exact absurd he.2 hd

theorem extractDoc_domain (d : Str) (anchors : List (Option Str)) (u : Url)
    (hu : u ∈ extractDoc d anchors) : u.domain = some d := by
  unfold extractDoc at hu
  rw [List.mem_filterMap] at hu
  obtain ⟨a, _, ha⟩ := hu
  cases a with
  | none => exact Option.noConfusion ha
  | some h => exact ((hrefUrl_eq_some_iff d h u).mp ha).2

theorem parse_urls_domain (page : Page) (d : Str) (u : Url)
    (hu : u ∈ parse_urls page d) : u.domain = some d := by
  unfold parse_urls at hu
  rw [List.mem_flatten] at hu
  obtain ⟨l, hl, hul⟩ := hu
  rw [List.mem_map] at hl
  obtain ⟨doc, _, rfl⟩ := hl
  exact extractDoc_domain d doc u hul

/-- C6: every URL returned by `parse_urls` has a host string-equal to the
crawl's target subdomain, and consequently every URL the extractor run ever
sends (hence every URL whose key it claims) has that host — a link to any
other host is never claimed or enqueued. -/
theorem c6_subdomain_filter (page : Page) (d : Str) (u : Url) :
    (u ∈ parse_urls page d → u.domain = some d)
  ∧ ∀ visited pages, u ∈ (LinkParser.run d visited pages).2 → u.domain = some d := by
  refine ⟨parse_urls_domain page d u, ?_⟩
  intro visited pages hu
  obtain ⟨_, p, _, hup⟩ := (linkParser_run_sent d visited pages).1 u hu
  exact parse_urls_domain p d u hup

/-- C6 witness: a same-host link is kept with its host, at the level of both
`parse_urls` and a full run. -/
theorem c6_subdomain_filter_witness :
    Url.domain ⟨str "https", str "x.com", str "/a", [], []⟩ = some (str "x.com") :=
  (c6_subdomain_filter ⟨[], [some (str "/a"), some (str "https://other.com/b")]⟩
      (str "x.com") ⟨str "https", str "x.com", str "/a", [], []⟩).1 (by decide)

theorem length_takeWhile_lt_of_not_all {p : Char → Bool} (xs : Str)
    (h : ¬ ∀ x ∈ xs, p x = true) : (xs.takeWhile p).length < xs.length := by
  rcases Nat.lt_or_ge (xs.takeWhile p).length xs.length with hlt | hge
  · exact hlt
  · exfalso
    have hle := (List.takeWhile_sublist (l := xs) p).length_le
    exact h (List.takeWhile_eq_self_iff.mp
      ((List.takeWhile_sublist p).eq_of_length (le_antisymm hle hge)))

theorem schemeOf_append_not_all (s t : Str)
    (h : ¬ ∀ x ∈ s, (x != ':') = true) : schemeOf (s ++ t) = schemeOf s :=
  takeWhile_append_not_all s t h

theorem afterScheme_append (s t : Str)
    (h : ¬ ∀ x ∈ s, (x != ':') = true) : afterScheme (s ++ t) = afterScheme s ++ t := by
  unfold afterScheme
  rw [schemeOf_append_not_all s t h]
  exact List.drop_append_of_le_length
    (Nat.succ_le_of_lt (length_takeWhile_lt_of_not_all s h))

theorem parse_some_not_all {s : Str} {u : Url} (h : Url.parse s = some u) :
    ¬ ∀ x ∈ s, (x != ':') = true := by
  intro hall
  unfold Url.parse at h
  rw [if_pos (by unfold schemeOf; rw [takeWhile_all s hall])] at h
  exact Option.noConfusion h

theorem urlPath_snoc_slash (t : Str) :
    trimSlash (urlPath (t ++ [ '/' ])) = trimSlash (urlPath t) := by
  unfold urlPath breakAt
  by_cases h1 : ∀ x ∈ t, (x != '#') = true
  · rw [List.takeWhile_append_of_pos h1, takeWhile_all t h1,
      show List.takeWhile (fun a => a != '#') [ '/' ] = [ '/' ] from rfl]
    by_cases h2 : ∀ x ∈ t, (x != '?') = true
    · rw [List.takeWhile_append_of_pos h2, takeWhile_all t h2,
        show List.takeWhile (fun a => a != '?') [ '/' ] = [ '/' ] from rfl]
      exact trimSlash_snoc_slash t
    · rw [takeWhile_append_not_all t [ '/' ] h2]
  · rw [takeWhile_append_not_all t [ '/' ] h1]

theorem domain_some (u : Url) (d : Str) (h : u.domain = some d) : u.host = d := by
  unfold Url.domain at h
  by_cases hh : u.host = []
  · rw [if_pos hh] at h
    exact Option.noConfusion h
  · rw [if_neg hh] at h
    exact Option.some.inj h

theorem parse_https (x : Str) :
    Url.parse (str "https://" ++ x) = Url.parseAuthority (str "https") x := by
  have hsch : schemeOf (str "https://" ++ x) = str "https" := by
    rw [show str "https://" ++ x = str "https" ++ (':' :: ('/' :: ('/' :: x))) from rfl]
    unfold schemeOf
    rw [List.takeWhile_append_of_pos (by decide),
      show List.takeWhile (fun a => a != ':') (':' :: ('/' :: ('/' :: x))) = [] from rfl,
      List.append_nil]
  have haf : afterScheme (str "https://" ++ x) = '/' :: '/' :: x := by
    unfold afterScheme
    rw [hsch, show str "https://" ++ x = str "https:" ++ ('/' :: ('/' :: x)) from rfl]
    exact List.drop_left' rfl
  have hlen : (str "https://" ++ x).length = 8 + x.length := by
    rw [List.length_append]
    rfl
  unfold Url.parse
  rw [hsch, haf, if_neg (by rw [hlen]; show ¬ 5 = 8 + x.length; omega),
    if_neg (by decide), if_pos (by rfl)]
  rfl

theorem parseAuthority_snoc_slash (sch rest : Str) (u u2 : Url)
    (h1 : Url.parseAuthority sch rest = some u)
    (h2 : Url.parseAuthority sch (rest ++ [ '/' ]) = some u2) :
    u2.host = u.host ∧ trimSlash u2.path = trimSlash u.path := by
  unfold Url.parseAuthority at h1 h2
  by_cases hall : ∀ x ∈ rest, hostChar x = true
  · have hw : rest.takeWhile hostChar = rest := takeWhile_all rest hall
    have hw2 : (rest ++ [ '/' ]).takeWhile hostChar = rest := by
      rw [List.takeWhile_append_of_pos hall,
        show List.takeWhile hostChar [ '/' ] = [] from rfl, List.append_nil]
    rw [hw] at h1
    rw [hw2] at h2
    by_cases hne : rest = []
    · rw [if_pos hne] at h1
      exact Option.noConfusion h1
    · rw [if_neg hne] at h1 h2
      cases h1
      cases h2
      refine ⟨rfl, ?_⟩
      show trimSlash (pathDefault (urlPath ((rest ++ [ '/' ]).drop rest.length)))
        = trimSlash (pathDefault (urlPath (rest.drop rest.length)))
      rw [List.drop_length, List.drop_left]
      decide
  · have hw2 : (rest ++ [ '/' ]).takeWhile hostChar = rest.takeWhile hostChar :=
      takeWhile_append_not_all rest [ '/' ] hall
    rw [hw2] at h2
    by_cases hhe : rest.takeWhile hostChar = []
    · rw [if_pos hhe] at h1
      exact Option.noConfusion h1
    · rw [if_neg hhe] at h1 h2
      have hdrop : (rest ++ [ '/' ]).drop (rest.takeWhile hostChar).length
          = rest.drop (rest.takeWhile hostChar).length ++ [ '/' ] :=
        List.drop_append_of_le_length (List.takeWhile_sublist hostChar).length_le
      cases h1
      cases h2
      refine ⟨rfl, ?_⟩
      show trimSlash (pathDefault (urlPath ((rest ++ [ '/' ]).drop
          (rest.takeWhile hostChar).length)))
        = trimSlash (pathDefault (urlPath (rest.drop (rest.takeWhile hostChar).length)))
      rw [hdrop, trimSlash_pathDefault, trimSlash_pathDefault]
      exact urlPath_snoc_slash _

theorem parse_snoc_slash (s : Str) (u u2 : Url)
    (h1 : Url.parse s = some u) (h2 : Url.parse (s ++ [ '/' ]) = some u2) :
    u2.host = u.host ∧ trimSlash u2.path = trimSlash u.path := by
  have hna := parse_some_not_all h1
  have hsch : schemeOf (s ++ [ '/' ]) = schemeOf s := schemeOf_append_not_all s _ hna
  have haf : afterScheme (s ++ [ '/' ]) = afterScheme s ++ [ '/' ] :=
    afterScheme_append s _ hna
  unfold Url.parse at h1 h2
  rw [hsch, haf] at h2
  by_cases hc1 : (schemeOf s).length = s.length
  · rw [if_pos hc1] at h1
    exact Option.noConfusion h1
  · rw [if_neg hc1] at h1
    have hlt : (schemeOf s).length < s.length := length_takeWhile_lt_of_not_all s hna
    rw [if_neg (by rw [List.length_append]; simp; omega)] at h2
    by_cases hc2 : validScheme (schemeOf s) = false
    · rw [if_pos hc2] at h1
      exact Option.noConfusion h1
    · rw [if_neg hc2] at h1
      rw [if_neg hc2] at h2
      by_cases hc3 : (afterScheme s).take 2 = str "//"
      · obtain ⟨r2, hr⟩ : ∃ r2, afterScheme s = '/' :: '/' :: r2 := by
          cases hr0 : afterScheme s with
          | nil => rw [hr0] at hc3; exact absurd hc3 (by decide)
          | cons a tl =>
            cases hr1 : tl with
            | nil =>
              rw [hr0, hr1] at hc3
              simp [str] at hc3
            | cons b tl2 =>
              rw [hr0, hr1] at hc3
              simp [str, List.take] at hc3
              exact ⟨tl2, by rw [hc3.1, hc3.2]⟩
        rw [hr, if_pos (by rfl)] at h1
        rw [hr, show ('/' :: '/' :: r2) ++ [ '/' ] = '/' :: '/' :: (r2 ++ [ '/' ]) from rfl,
          if_pos (by rfl)] at h2
        exact parseAuthority_snoc_slash (schemeOf s) r2 u u2 h1 h2
      · rw [if_neg hc3] at h1
        by_cases hc4 : (afterScheme s ++ [ '/' ]).take 2 = str "//"
        · obtain hr : afterScheme s = [ '/' ] := by
            cases hr0 : afterScheme s with
            | nil => rw [hr0] at hc4; exact absurd hc4 (by decide)
            | cons a tl =>
              cases hr1 : tl with
              | nil =>
                rw [hr0, hr1] at hc4
                simp [str, List.take] at hc4
                rw [hc4]
              | cons b tl2 =>
                rw [hr0, hr1] at hc3 hc4
                simp [str, List.take] at hc3 hc4
                exact absurd (by rw [hc4.1, hc4.2]; exact ⟨rfl, rfl⟩ : a = '/' ∧ b = '/')
                  (by intro hab; exact hc3 hab.1 hab.2)
          rw [hr, if_pos (by rfl)] at h2
          rw [show (([ '/' ] : Str) ++ [ '/' ]).drop 2 = [] from rfl] at h2
          unfold Url.parseAuthority at h2
          rw [if_pos (by rfl)] at h2
          exact Option.noConfusion h2
        · rw [if_neg hc4] at h2
          cases h1
          cases h2
          exact ⟨rfl, urlPath_snoc_slash _⟩

theorem survivingKey_eq_some_iff (d h k : Str) :
    survivingKey d h = some k
      ↔ ∃ u, Url.parse (normalize_href h d) = some u ∧ u.domain = some d
          ∧ k = frontierKey u := by
  unfold survivingKey
  cases hu : hrefUrl d h with
  | none =>
    constructor
    · intro hc
      exact Option.noConfusion hc
    · rintro ⟨u, hp, hd, rfl⟩
      rw [(hrefUrl_eq_some_iff d h u).mpr ⟨hp, hd⟩] at hu
      exact Option.noConfusion hu
  | some v =>
    obtain ⟨hp, hd⟩ := (hrefUrl_eq_some_iff d h v).mp hu
    constructor
    · intro hc
      exact ⟨v, hp, hd, (Option.some.inj hc).symm⟩
    · rintro ⟨u, hp2, hd2, rfl⟩
      rw [hp] at hp2
      cases hp2
      rfl

theorem survivingKey_fragment (d h f k k2 : Str) (hnf : '#' ∉ h)
    (hk : survivingKey d (h ++ '#' :: f) = some k)
    (hk2 : survivingKey d h = some k2) : k = k2 := by
  obtain ⟨u2, hp2, hd2, rfl⟩ := (survivingKey_eq_some_iff d _ k).mp hk
  obtain ⟨u, hp, hd, rfl⟩ := (survivingKey_eq_some_iff d h k2).mp hk2
  have hall : ∀ x ∈ h, (x != '#') = true := (all_bne_iff '#' h).mpr hnf
  by_cases hb0 : h = []
  · subst hb0
    by_cases hf : f = []
    · subst hf
      rw [show normalize_href ([] ++ '#' :: []) d = normalize_href [] d from rfl, hp] at hp2
      cases hp2
      rfl
    · have hcb : ¬ (([] : Str) ++ '#' :: f = [] ∨ [] ++ '#' :: f = str "/"
          ∨ [] ++ '#' :: f = str "#" ∨ [] ++ '#' :: f = str "/#") := by
        rw [List.nil_append]
        rintro (hc | hc | hc | hc) <;> simp [str] at hc
        exact hf hc
      have hn : normalize_href ([] ++ '#' :: f) d = [] := by
        unfold normalize_href
        rw [if_neg hcb, List.nil_append,
          show List.takeWhile (fun a => a != '#') ('#' :: f) = [] from by simp]
        simp
      rw [hn, show Url.parse ([] : Str) = none from rfl] at hp2
      exact Option.noConfusion hp2
  · by_cases hb1 : h = str "/"
    · subst hb1
      by_cases hf : f = []
      · subst hf
        rw [show normalize_href (str "/" ++ '#' :: []) d = normalize_href (str "/") d from rfl,
          hp] at hp2
        cases hp2
        rfl
      · have hcb : ¬ (str "/" ++ '#' :: f = [] ∨ str "/" ++ '#' :: f = str "/"
            ∨ str "/" ++ '#' :: f = str "#" ∨ str "/" ++ '#' :: f = str "/#") := by
          rintro (hc | hc | hc | hc) <;> simp [str] at hc
          exact hf hc
        have hn : normalize_href (str "/" ++ '#' :: f) d
            = str "https://" ++ (d ++ [ '/' ]) := by
          unfold normalize_href
          rw [if_neg hcb,
            show (str "/" ++ '#' :: f).takeWhile (fun a => a != '#') = [ '/' ] from rfl]
          rfl
        rw [hn, show str "https://" ++ (d ++ [ '/' ])
            = (str "https://" ++ d) ++ [ '/' ] from (List.append_assoc _ _ _).symm] at hp2
        rw [show normalize_href (str "/") d = str "https://" ++ d from rfl] at hp
        exact (parse_snoc_slash _ u u2 hp hp2).2
    · have hb4 : ¬ (h = [] ∨ h = str "/" ∨ h = str "#" ∨ h = str "/#") := by
        rintro (hc | hc | hc | hc)
        · exact hb0 hc
        · exact hb1 hc
        · subst hc
          exact hnf (by decide)
        · subst hc
          exact hnf (by decide)
      have hcb : ¬ (h ++ '#' :: f = [] ∨ h ++ '#' :: f = str "/"
          ∨ h ++ '#' :: f = str "#" ∨ h ++ '#' :: f = str "/#") := by
        rintro (hc | hc | hc | hc)
        · exact List.append_ne_nil_of_right_ne_nil h (List.cons_ne_nil '#' f) hc
        · have hm : '#' ∈ str "/" := by
            rw [← hc]
            exact List.mem_append_right h (List.mem_cons_self '#' f)
          exact absurd hm (by decide)
        · have hlen := congrArg List.length hc
          rw [List.length_append, List.length_cons] at hlen
          have hh0 : h = [] := List.eq_nil_of_length_eq_zero (by
            have : (str "#").length = 1 := rfl
            omega)
          exact hb0 hh0
        · have hlen := congrArg List.length hc
          rw [List.length_append, List.length_cons] at hlen
          have hl2 : (str "/#").length = 2 := rfl
          have hh1 : h.length = 1 := by
            rcases Nat.eq_zero_or_pos h.length with h0 | hpos
            · exact absurd (List.eq_nil_of_length_eq_zero h0) hb0
            · omega
          obtain ⟨a, rfl⟩ := List.length_eq_one.mp hh1
          simp [str] at hc
          exact hb1 (by rw [hc.1]; rfl)
      have htw : (h ++ '#' :: f).takeWhile (fun a => a != '#') = h := by
        rw [List.takeWhile_append_of_pos hall,
          show List.takeWhile (fun a => a != '#') ('#' :: f) = [] from by simp]
        exact List.append_nil h
      have hn : normalize_href (h ++ '#' :: f) d = normalize_href h d := by
        unfold normalize_href
        rw [if_neg hcb, if_neg hb4, htw, takeWhile_all h hall]
      rw [hn, hp] at hp2
      cases hp2
      rfl

theorem survivingKey_snoc_slash (d h k k2 : Str)
    (hk : survivingKey d (h ++ [ '/' ]) = some k)
    (hk2 : survivingKey d h = some k2) : k = k2 := by
  obtain ⟨u2, hp2, hd2, rfl⟩ := (survivingKey_eq_some_iff d _ k).mp hk
  obtain ⟨u, hp, hd, rfl⟩ := (survivingKey_eq_some_iff d h k2).mp hk2
  by_cases hb0 : h = []
  · subst hb0
    rw [show normalize_href ([] ++ [ '/' ]) d = normalize_href [] d from rfl, hp] at hp2
    cases hp2
    rfl
  · by_cases hb1 : h = str "/"
    · subst hb1
      have hn : normalize_href (str "/" ++ [ '/' ]) d
          = str "https://" ++ (d ++ str "//") := rfl
      rw [hn, parse_https (d ++ str "//")] at hp2
      rw [show normalize_href (str "/") d = str "https://" ++ d from rfl,
        parse_https d] at hp
      unfold Url.parseAuthority at hp hp2
      by_cases hall : ∀ x ∈ d, hostChar x = true
      · have hw : d.takeWhile hostChar = d := takeWhile_all d hall
        have hw2 : (d ++ str "//").takeWhile hostChar = d := by
          rw [List.takeWhile_append_of_pos hall,
            show List.takeWhile hostChar (str "//") = [] from rfl, List.append_nil]
        rw [hw] at hp
        rw [hw2] at hp2
        by_cases hne : d = []
        · rw [if_pos hne] at hp
          exact Option.noConfusion hp
        · rw [if_neg hne] at hp hp2
          cases hp
          cases hp2
          show trimSlash (pathDefault (urlPath ((d ++ str "//").drop d.length)))
            = trimSlash (pathDefault (urlPath (d.drop d.length)))
          rw [List.drop_length, List.drop_left]
          decide
      · have hw2 : (d ++ str "//").takeWhile hostChar = d.takeWhile hostChar :=
          takeWhile_append_not_all d (str "//") hall
        rw [hw2] at hp2
        by_cases hhe : d.takeWhile hostChar = []
        · rw [if_pos hhe] at hp
          exact Option.noConfusion hp
        · rw [if_neg hhe] at hp2
          cases hp2
          have hhost := domain_some _ d hd2
          exact absurd (List.takeWhile_eq_self_iff.mp hhost) hall
    · by_cases hb2 : h = str "#"
      · subst hb2
        rw [show normalize_href (str "#" ++ [ '/' ]) d = [] from rfl,
          show Url.parse ([] : Str) = none from rfl] at hp2
        exact Option.noConfusion hp2
      · by_cases hb3 : h = str "/#"
        · subst hb3
          have hn : normalize_href (str "/#" ++ [ '/' ]) d
              = str "https://" ++ (d ++ [ '/' ]) := rfl
          rw [hn, show str "https://" ++ (d ++ [ '/' ])
              = (str "https://" ++ d) ++ [ '/' ] from (List.append_assoc _ _ _).symm] at hp2
          rw [show normalize_href (str "/#") d = str "https://" ++ d from rfl] at hp
          exact (parse_snoc_slash _ u u2 hp hp2).2
        · have hb4 : ¬ (h = [] ∨ h = str "/" ∨ h = str "#" ∨ h = str "/#") := by
            rintro (hc | hc | hc | hc)
            · exact hb0 hc
            · exact hb1 hc
            · exact hb2 hc
            · exact hb3 hc
          have hcb : ¬ (h ++ [ '/' ] = [] ∨ h ++ [ '/' ] = str "/"
              ∨ h ++ [ '/' ] = str "#" ∨ h ++ [ '/' ] = str "/#") := by
            rintro (hc | hc | hc | hc)
            · exact List.append_ne_nil_of_right_ne_nil h (List.cons_ne_nil '/' []) hc
            · have hlen := congrArg List.length hc
              rw [List.length_append] at hlen
              exact hb0 (List.eq_nil_of_length_eq_zero (by
                have : (str "/").length = 1 := rfl
                simp at hlen
                omega))
            · have hlen := congrArg List.length hc
              rw [List.length_append] at hlen
              exact hb0 (List.eq_nil_of_length_eq_zero (by
                have : (str "#").length = 1 := rfl
                simp at hlen
                omega))
            · have hlen := congrArg List.length hc
              rw [List.length_append] at hlen
              have hh1 : h.length = 1 := by
                have : (str "/#").length = 2 := rfl
                simp at hlen
                omega
              obtain ⟨a, rfl⟩ := List.length_eq_one.mp hh1
              simp [str] at hc
          by_cases hsh : '#' ∈ h
          · have hnall : ¬ ∀ x ∈ h, (x != '#') = true :=
              fun hall => (all_bne_iff '#' h).mp hall hsh
            have htw : (h ++ [ '/' ]).takeWhile (fun a => a != '#')
                = h.takeWhile (fun a => a != '#') :=
              takeWhile_append_not_all h [ '/' ] hnall
            have hn : normalize_href (h ++ [ '/' ]) d = normalize_href h d := by
              unfold normalize_href
              rw [if_neg hcb, if_neg hb4, htw]
            rw [hn, hp] at hp2
            cases hp2
            rfl
          · have hall : ∀ x ∈ h, (x != '#') = true := (all_bne_iff '#' h).mpr hsh
            have htw : (h ++ [ '/' ]).takeWhile (fun a => a != '#') = h ++ [ '/' ] := by
              rw [List.takeWhile_append_of_pos hall,
                show List.takeWhile (fun a => a != '#') [ '/' ] = [ '/' ] from rfl]
            have htwh : h.takeWhile (fun a => a != '#') = h := takeWhile_all h hall
            obtain ⟨a, t, rfl⟩ := List.exists_cons_of_ne_nil hb0
            by_cases hsl : a = '/'
            · subst hsl
              have hn : normalize_href (('/' :: t) ++ [ '/' ]) d
                  = str "https://" ++ (d ++ (('/' :: t) ++ [ '/' ])) := by
                unfold normalize_href
                rw [if_neg hcb, htw, if_pos (by rfl)]
                rfl
              have hn2 : normalize_href ('/' :: t) d
                  = str "https://" ++ (d ++ ('/' :: t)) := by
                unfold normalize_href
                rw [if_neg hb4, htwh, if_pos (by rfl)]
                rfl
              rw [hn, show str "https://" ++ (d ++ (('/' :: t) ++ [ '/' ]))
                  = (str "https://" ++ (d ++ ('/' :: t))) ++ [ '/' ] from by
                simp [List.append_assoc]] at hp2
              rw [hn2] at hp
              exact (parse_snoc_slash _ u u2 hp hp2).2
            · have hn : normalize_href ((a :: t) ++ [ '/' ]) d = (a :: t) ++ [ '/' ] := by
                unfold normalize_href
                rw [if_neg hcb, htw, if_neg (show ¬ ((a :: t) ++ [ '/' ]).head? = some '/'
                  from fun hc => hsl (Option.some.inj hc))]
              have hn2 : normalize_href (a :: t) d = a :: t := by
                unfold normalize_href
                rw [if_neg hb4, htwh, if_neg (show ¬ (a :: t).head? = some '/'
                  from fun hc => hsl (Option.some.inj hc))]
              rw [hn] at hp2
              rw [hn2] at hp
              exact (parse_snoc_slash _ u u2 hp hp2).2

/-- C3: the frontier key claimed for every URL the extractor sends is
exactly the URL's path with any trailing `/` stripped — the run's final
visited set is precisely the trimmed paths of the sent URLs plus the
initial keys — and for hrefs that survive extraction, appending a fragment
to a fragment-free href, or a trailing slash to any href, never changes
the surviving key, so such variants are claimed only once. -/
theorem c3_frontier_key (subdomain : Str) :
    (∀ visited pages, (LinkParser.run subdomain visited pages).1
        = ((LinkParser.run subdomain visited pages).2.map
            (fun u => trimSlash u.path)).reverse ++ visited)
  ∧ (∀ h f k k2, '#' ∉ h → survivingKey subdomain (h ++ '#' :: f) = some k →
        survivingKey subdomain h = some k2 → k = k2)
  ∧ (∀ h k k2, survivingKey subdomain (h ++ [ '/' ]) = some k →
        survivingKey subdomain h = some k2 → k = k2) := by
  refine ⟨?_, ?_, ?_⟩
  · intro visited pages
    exact linkParser_run_fst subdomain visited pages
  · intro h f k k2 hnf hk hk2
    exact survivingKey_fragment subdomain h f k k2 hnf hk hk2
  · intro h k k2 hk hk2
    exact survivingKey_snoc_slash subdomain h k k2 hk hk2

/-- C3 witness: `/a#top`, `/a` and `/a/` all map to the surviving frontier
key `/a`. -/
theorem c3_frontier_key_witness :
    ('#' ∉ str "/a"
      ∧ survivingKey (str "x.com") (str "/a" ++ '#' :: str "top") = some (str "/a")
      ∧ survivingKey (str "x.com") (str "/a") = some (str "/a")
      ∧ survivingKey (str "x.com") (str "/a" ++ [ '/' ]) = some (str "/a"))
  ∧ str "/a" = str "/a" ∧ str "/a" = str "/a" :=
  ⟨⟨by decide, by decide, by decide, by decide⟩,
    (c3_frontier_key (str "x.com")).2.1 (str "/a") (str "top") (str "/a") (str "/a")
      (by decide) (by decide) (by decide),
    (c3_frontier_key (str "x.com")).2.2 (str "/a") (str "/a") (str "/a")
      (by decide) (by decide)⟩
